import Mathlib

/-!
Verification of the `orderedmap` package (lorenzosaino/go-orderedmap).

The ordered map couples a key-to-node lookup table (`m`, a Go map from
keys to list-element pointers) with a doubly-linked list (`l`, from the
package `internal/list`, a generics fork of `container/list`).

Shallow embedding choices:
* A list element pointer is modelled by a numeric node identity; the
  field `nextId` of the state is the allocator for fresh identities, so
  distinct allocations never share an identity (as distinct live
  pointers never alias in Go).
* The linked list is modelled as the front-to-back sequence of nodes,
  each node being a pair `(id, item)`.
* The Go map `m` is modelled as an association list of `(key, id)`
  pairs; a Go map holds at most one entry per key, which the operations
  below preserve.
* A Go function returning `(value, ok bool)` is modelled as returning
  `Option`; `none` stands for `(zero value, false)`.
* The Go `error` result is modelled as `Option Err`, `none` standing
  for a `nil` error.

The package `internal/list` is not part of the sources at hand (only
its caller `orderedmap.go` is), so the list-engine operations are
modelled from the spec, section 4.1; this is noted on each of them.
-/

namespace Orderedmap

/-- The error values of the package: ErrKeyMissing, ErrMarkKeyMissing,
ErrKeyAlreadyPresent. -/
inductive Err where
  | KeyMissing
  | MarkKeyMissing
  | KeyAlreadyPresent
deriving DecidableEq, Repr

/-- Item is a key-value item stored in the ordered map. -/
structure Item (K V : Type) where
  Key : K
  Value : V
deriving DecidableEq, Repr

/-- A list element: a pointer identity paired with the item it holds. -/
abbrev Node (K V : Type) := Nat × Item K V

/-- OrderedMap state: the lookup table `m` (key to node identity), the
linked list `l` (front-to-back node sequence) and the identity
allocator `nextId`. -/
structure OrderedMap (K V : Type) where
  m : List (K × Nat)
  l : List (Node K V)
  nextId : Nat
deriving DecidableEq, Repr

variable {K V : Type} [DecidableEq K]

/-- Go map lookup `m.m[key]`. -/
def tblGet (t : List (K × Nat)) (k : K) : Option Nat :=
  match t with
  | [] => none
  | (k', id) :: rest => if k' = k then some id else tblGet rest k

/-- Go map assignment `m.m[key] = el` (replaces an existing entry for
the key, otherwise adds one). -/
def tblSet (t : List (K × Nat)) (k : K) (id : Nat) : List (K × Nat) :=
  match t with
  | [] => [(k, id)]
  | (k', id') :: rest =>
    if k' = k then (k, id) :: rest else (k', id') :: tblSet rest k id

/-- Go built-in `delete(m.m, key)`. -/
def tblDel (t : List (K × Nat)) (k : K) : List (K × Nat) :=
  match t with
  | [] => []
  | (k', id') :: rest =>
    if k' = k then rest else (k', id') :: tblDel rest k

/-- Pointer dereference: the item held by the node with the given
identity. Modelled from the spec: a node reference designates one
node of the list. -/
def listFind (l : List (Node K V)) (id : Nat) : Option (Item K V) :=
  match l with
  | [] => none
  | n :: rest => if n.1 = id then some n.2 else listFind rest id

/-- Modelled from the spec: list-engine `pushFront(v)` links a new
node at the front. -/
def listPushFront (l : List (Node K V)) (id : Nat) (v : Item K V) :
    List (Node K V) :=
  (id, v) :: l

/-- Modelled from the spec: list-engine `pushBack(v)` links a new node
at the back. -/
def listPushBack (l : List (Node K V)) (id : Nat) (v : Item K V) :
    List (Node K V) :=
  l ++ [(id, v)]

/-- Modelled from the spec: list-engine `insertAfter(v, markNode)`
links a new node immediately after the mark node. -/
def listInsertAfter (l : List (Node K V)) (id : Nat) (v : Item K V)
    (mark : Nat) : List (Node K V) :=
  match l with
  | [] => []
  | n :: rest =>
    if n.1 = mark then n :: (id, v) :: rest
    else n :: listInsertAfter rest id v mark

/-- Modelled from the spec: list-engine `insertBefore(v, markNode)`
links a new node immediately before the mark node. -/
def listInsertBefore (l : List (Node K V)) (id : Nat) (v : Item K V)
    (mark : Nat) : List (Node K V) :=
  match l with
  | [] => []
  | n :: rest =>
    if n.1 = mark then (id, v) :: n :: rest
    else n :: listInsertBefore rest id v mark

/-- Modelled from the spec: list-engine `remove(e)` detaches the node,
closing the gap between its neighbours. -/
def listRemove (l : List (Node K V)) (id : Nat) : List (Node K V) :=
  match l with
  | [] => []
  | n :: rest => if n.1 = id then rest else n :: listRemove rest id

/-- Modelled from the spec: list-engine `moveToFront(e)` repositions
the node at the front (no-op-safe when already there). -/
def listMoveToFront (l : List (Node K V)) (id : Nat) : List (Node K V) :=
  match listFind l id with
  | none => l
  | some v => (id, v) :: listRemove l id

/-- Modelled from the spec: list-engine `moveToBack(e)` repositions
the node at the back (no-op-safe when already there). -/
def listMoveToBack (l : List (Node K V)) (id : Nat) : List (Node K V) :=
  match listFind l id with
  | none => l
  | some v => listRemove l id ++ [(id, v)]

/-- Modelled from the spec: list-engine `moveAfter(e, mark)`
repositions `e` immediately after `mark`; a no-op when `e == mark`. -/
def listMoveAfter (l : List (Node K V)) (id mark : Nat) : List (Node K V) :=
  if id = mark then l
  else
    match listFind l id with
    | none => l
    | some v => listInsertAfter (listRemove l id) id v mark

/-- Modelled from the spec: list-engine `moveBefore(e, mark)`
repositions `e` immediately before `mark`; a no-op when `e == mark`. -/
def listMoveBefore (l : List (Node K V)) (id mark : Nat) : List (Node K V) :=
  if id = mark then l
  else
    match listFind l id with
    | none => l
    | some v => listInsertBefore (listRemove l id) id v mark

/-- Modelled from the spec: list-engine `next(e)`, the node following
`e`, or none at the back. -/
def listNext (l : List (Node K V)) (id : Nat) : Option (Item K V) :=
  match l with
  | [] => none
  | n :: rest =>
    if n.1 = id then rest.head?.map (fun n' => n'.2) else listNext rest id

/-- Modelled from the spec: list-engine `prev(e)`, the node preceding
`e`, or none at the front. -/
def listPrev (l : List (Node K V)) (id : Nat) : Option (Item K V) :=
  match l with
  | [] => none
  | n :: rest =>
    match rest with
    | [] => none
    | n' :: _ =>
      if n'.1 = id then some n.2 else listPrev rest id

/-- In-place mutation `el.Value.Value = value` of the node with the
given identity (the other nodes are untouched). -/
def listSetValue (l : List (Node K V)) (id : Nat) (v : V) :
    List (Node K V) :=
  l.map (fun n => if n.1 = id then (n.1, ⟨n.2.Key, v⟩) else n)

/-- New returns a new ordered map instance. -/
def New : OrderedMap K V := ⟨[], [], 0⟩

/-- Get returns the value associated to a key in the map. -/
def Get (s : OrderedMap K V) (key : K) : Option V :=
  match tblGet s.m key with
  | some id => (listFind s.l id).map (fun it => it.Value)
  | none => none

/-- Update updates the value associated to an existing key and returns
the old value; ErrKeyMissing if the key is not present. -/
def Update (s : OrderedMap K V) (key : K) (value : V) :
    OrderedMap K V × Option V × Option Err :=
  match tblGet s.m key with
  | none => (s, none, some Err.KeyMissing)
  | some id =>
    ({ s with l := listSetValue s.l id value },
     (listFind s.l id).map (fun it => it.Value), none)

/-- Front returns the item at the front of the map. -/
def Front (s : OrderedMap K V) : Option (Item K V) :=
  s.l.head?.map (fun n => n.2)

/-- Back returns the item at the back of the map. -/
def Back (s : OrderedMap K V) : Option (Item K V) :=
  s.l.getLast?.map (fun n => n.2)

/-- PushFront inserts a new key and value at the front of the map;
ErrKeyAlreadyPresent if the key is already present. -/
def PushFront (s : OrderedMap K V) (key : K) (value : V) :
    OrderedMap K V × Option Err :=
  match tblGet s.m key with
  | some _ => (s, some Err.KeyAlreadyPresent)
  | none =>
    ({ m := tblSet s.m key s.nextId,
       l := listPushFront s.l s.nextId ⟨key, value⟩,
       nextId := s.nextId + 1 }, none)

/-- PushBack inserts a new key and value at the back of the map;
ErrKeyAlreadyPresent if the key is already present. -/
def PushBack (s : OrderedMap K V) (key : K) (value : V) :
    OrderedMap K V × Option Err :=
  match tblGet s.m key with
  | some _ => (s, some Err.KeyAlreadyPresent)
  | none =>
    ({ m := tblSet s.m key s.nextId,
       l := listPushBack s.l s.nextId ⟨key, value⟩,
       nextId := s.nextId + 1 }, none)

/-- InsertAfter inserts a new key and value immediately after a mark
key; ErrKeyAlreadyPresent if the key is already present,
ErrMarkKeyMissing if the mark key is missing. -/
def InsertAfter (s : OrderedMap K V) (key : K) (value : V) (mark : K) :
    OrderedMap K V × Option Err :=
  match tblGet s.m key with
  | some _ => (s, some Err.KeyAlreadyPresent)
  | none =>
    match tblGet s.m mark with
    | none => (s, some Err.MarkKeyMissing)
    | some markId =>
      ({ m := tblSet s.m key s.nextId,
         l := listInsertAfter s.l s.nextId ⟨key, value⟩ markId,
         nextId := s.nextId + 1 }, none)

/-- InsertBefore inserts a new key and value immediately before a mark
key; ErrKeyAlreadyPresent if the key is already present,
ErrMarkKeyMissing if the mark key is missing. -/
def InsertBefore (s : OrderedMap K V) (key : K) (value : V) (mark : K) :
    OrderedMap K V × Option Err :=
  match tblGet s.m key with
  | some _ => (s, some Err.KeyAlreadyPresent)
  | none =>
    match tblGet s.m mark with
    | none => (s, some Err.MarkKeyMissing)
    | some markId =>
      ({ m := tblSet s.m key s.nextId,
         l := listInsertBefore s.l s.nextId ⟨key, value⟩ markId,
         nextId := s.nextId + 1 }, none)

/-- MoveToFront moves an existing key to the front of the map;
ErrKeyMissing if the key is not in the map. -/
def MoveToFront (s : OrderedMap K V) (key : K) :
    OrderedMap K V × Option Err :=
  match tblGet s.m key with
  | none => (s, some Err.KeyMissing)
  | some id => ({ s with l := listMoveToFront s.l id }, none)

/-- MoveToBack moves an existing key to the back of the map;
ErrKeyMissing if the key is not in the map. -/
def MoveToBack (s : OrderedMap K V) (key : K) :
    OrderedMap K V × Option Err :=
  match tblGet s.m key with
  | none => (s, some Err.KeyMissing)
  | some id => ({ s with l := listMoveToBack s.l id }, none)

/-- MoveAfter moves an existing key immediately after a mark key. -/
def MoveAfter (s : OrderedMap K V) (key mark : K) :
    OrderedMap K V × Option Err :=
  if key = mark then (s, none)
  else
    match tblGet s.m key with
    | none => (s, some Err.KeyMissing)
    | some id =>
      match tblGet s.m mark with
      | none => (s, some Err.KeyMissing)
      | some markId => ({ s with l := listMoveAfter s.l id markId }, none)

/-- MoveBefore moves an existing key immediately before a mark key. -/
def MoveBefore (s : OrderedMap K V) (key mark : K) :
    OrderedMap K V × Option Err :=
  if key = mark then (s, none)
  else
    match tblGet s.m key with
    | none => (s, some Err.KeyMissing)
    | some id =>
      match tblGet s.m mark with
      | none => (s, some Err.KeyMissing)
      | some markId => ({ s with l := listMoveBefore s.l id markId }, none)

/-- Delete deletes an item from the map and returns the value deleted;
`none` models the not-found result (zero value, ok = false). -/
def Delete (s : OrderedMap K V) (key : K) :
    OrderedMap K V × Option V :=
  match tblGet s.m key with
  | none => (s, none)
  | some id =>
    ({ s with m := tblDel s.m key, l := listRemove s.l id },
     (listFind s.l id).map (fun it => it.Value))

/-- PopFront pops the element at the front of the map and returns it. -/
def PopFront (s : OrderedMap K V) :
    OrderedMap K V × Option (Item K V) :=
  match s.l.head? with
  | none => (s, none)
  | some n =>
    ({ s with m := tblDel s.m n.2.Key, l := listRemove s.l n.1 }, some n.2)

/-- PopBack pops the element at the back of the map and returns it. -/
def PopBack (s : OrderedMap K V) :
    OrderedMap K V × Option (Item K V) :=
  match s.l.getLast? with
  | none => (s, none)
  | some n =>
    ({ s with m := tblDel s.m n.2.Key, l := listRemove s.l n.1 }, some n.2)

/-- Len returns the number of items stored in the ordered map
(`len(m.m)`). -/
def Len (s : OrderedMap K V) : Nat :=
  s.m.length

/-- Clear empties the ordered map. -/
def Clear (s : OrderedMap K V) : OrderedMap K V :=
  { s with m := [], l := [] }

/-- Keys returns the ordered slice of keys of the content of the map. -/
def Keys (s : OrderedMap K V) : List K :=
  s.l.map (fun n => n.2.Key)

/-- Items returns the ordered slice of items of the content of the map. -/
def Items (s : OrderedMap K V) : List (Item K V) :=
  s.l.map (fun n => n.2)

/-- Next returns the item succeeding a given key in the map. -/
def Next (s : OrderedMap K V) (key : K) : Option (Item K V) :=
  match tblGet s.m key with
  | none => none
  | some id => listNext s.l id

/-- Prev returns the item preceding a given key in the map. -/
def Prev (s : OrderedMap K V) (key : K) : Option (Item K V) :=
  match tblGet s.m key with
  | none => none
  | some id => listPrev s.l id

/-- One step of the Front and Next iteration used by Reverse and
Filter: visits the current item, then continues from its successor;
the fuel bounds the number of steps (the source loop is bounded by the
list length when the invariant holds). -/
def iterAux (s : OrderedMap K V) : Nat → Item K V → List (Item K V)
  | 0, it => [it]
  | fuel + 1, it =>
    it ::
      match Next s it.Key with
      | none => []
      | some it' => iterAux s fuel it'

/-- The sequence of items visited by the loop
`for item, ok := m.Front(); ok; item, ok = m.Next(item.Key)`. -/
def iterItems (s : OrderedMap K V) : List (Item K V) :=
  match Front s with
  | none => []
  | some it => iterAux s s.l.length it

/-- The loop-body guard `f != nil && !f(item.Key, item.Value)` of
Filter, with the nil-able Go function value modelled as an Option. -/
def shouldSkip (f : Option (K → V → Bool)) (it : Item K V) : Bool :=
  match f with
  | none => false
  | some p => !p it.Key it.Value

/-- One Filter loop iteration: skip the item, or push it at the back
of the output. A failing PushBack would make the source panic; it
cannot fail here because the keys fed to it are pairwise distinct, so
only the success state is kept. -/
def filterStep (f : Option (K → V → Bool)) (out : OrderedMap K V)
    (it : Item K V) : OrderedMap K V :=
  if shouldSkip f it then out else (PushBack out it.Key it.Value).1

/-- Filter returns a filtered copy of the ordered map, built by the
Front and Next iteration over the receiver. -/
def Filter (s : OrderedMap K V) (f : Option (K → V → Bool)) :
    OrderedMap K V :=
  (iterItems s).foldl (filterStep f) New

/-- One Reverse loop iteration: push the visited item at the front of
the output (the panic on a failing PushFront is unreachable, as in
filterStep). -/
def revStep (out : OrderedMap K V) (it : Item K V) : OrderedMap K V :=
  (PushFront out it.Key it.Value).1

/-- Reverse returns a copy of the ordered map with reversed ordering,
built by the Front and Next iteration over the receiver. -/
def Reverse (s : OrderedMap K V) : OrderedMap K V :=
  (iterItems s).foldl revStep New

/-- One Items-fed PushBack step, as in the round-trip property. -/
def backStep (out : OrderedMap K V) (it : Item K V) : OrderedMap K V :=
  (PushBack out it.Key it.Value).1

/-- The state-changing public operations (the read-only operations
Get, Front, Back, Len, Keys, Items, Map, Next, Prev, Range and
RangeReverse do not modify the state); `filter` and `reverse` continue
on the newly produced map. -/
inductive Op (K V : Type) where
  | update (key : K) (value : V)
  | pushFront (key : K) (value : V)
  | pushBack (key : K) (value : V)
  | insertAfter (key : K) (value : V) (mark : K)
  | insertBefore (key : K) (value : V) (mark : K)
  | moveToFront (key : K)
  | moveToBack (key : K)
  | moveAfter (key : K) (mark : K)
  | moveBefore (key : K) (mark : K)
  | delete (key : K)
  | popFront
  | popBack
  | clear
  | filter (f : Option (K → V → Bool))
  | reverse

/-- The state reached by one public operation. -/
def applyOp (s : OrderedMap K V) : Op K V → OrderedMap K V
  | Op.update k v => (Update s k v).1
  | Op.pushFront k v => (PushFront s k v).1
  | Op.pushBack k v => (PushBack s k v).1
  | Op.insertAfter k v mk => (InsertAfter s k v mk).1
  | Op.insertBefore k v mk => (InsertBefore s k v mk).1
  | Op.moveToFront k => (MoveToFront s k).1
  | Op.moveToBack k => (MoveToBack s k).1
  | Op.moveAfter k mk => (MoveAfter s k mk).1
  | Op.moveBefore k mk => (MoveBefore s k mk).1
  | Op.delete k => (Delete s k).1
  | Op.popFront => (PopFront s).1
  | Op.popBack => (PopBack s).1
  | Op.clear => Clear s
  | Op.filter f => Filter s f
  | Op.reverse => Reverse s

/-- The state reached from a freshly created empty map by a sequence
of public operations. -/
def run (ops : List (Op K V)) : OrderedMap K V :=
  ops.foldl applyOp New

/-- The consistency invariant tying the lookup table to the list: the
table keys are unique, node identities and node keys are unique, every
table entry points to a node holding its key, every node is indexed by
the table under its key, and every linked node's identity was
allocated. -/
structure Inv (s : OrderedMap K V) : Prop where
  tbl_nodup : (s.m.map Prod.fst).Nodup
  ids_nodup : (s.l.map Prod.fst).Nodup
  keys_nodup : (s.l.map (fun n => n.2.Key)).Nodup
  tbl_to_list : ∀ p ∈ s.m, ∃ it, (p.2, it) ∈ s.l ∧ it.Key = p.1
  list_to_tbl : ∀ n ∈ s.l, (n.2.Key, n.1) ∈ s.m
  ids_lt : ∀ n ∈ s.l, n.1 < s.nextId

/-! Basic facts about the lookup-table primitives. -/

theorem tblGet_eq_none_iff {t : List (K × Nat)} {k : K} :
    tblGet t k = none ↔ k ∉ t.map Prod.fst := by
  induction t with
  | nil => simp [tblGet]
  | cons p rest ih =>
    obtain ⟨k', id⟩ := p
    by_cases h : k' = k
    · subst h; simp [tblGet]
    · simp only [tblGet, if_neg h, ih, List.map_cons, List.mem_cons]
      constructor
      · intro hn hc
        rcases hc with e | hc
        · exact h e.symm
        · exact hn hc
      · intro hn hc
        exact hn (Or.inr hc)

theorem mem_of_tblGet_eq_some {t : List (K × Nat)} {k : K} {id : Nat}
    (h : tblGet t k = some id) : (k, id) ∈ t := by
  induction t with
  | nil => simp [tblGet] at h
  | cons p rest ih =>
    obtain ⟨k', id'⟩ := p
    by_cases hk : k' = k
    · subst hk
      simp [tblGet] at h
      simp [h]
    · simp only [tblGet, if_neg hk] at h
      exact List.mem_cons_of_mem _ (ih h)

theorem tblGet_eq_some_of_mem {t : List (K × Nat)} {k : K} {id : Nat}
    (hnd : (t.map Prod.fst).Nodup) (h : (k, id) ∈ t) :
    tblGet t k = some id := by
  induction t with
  | nil => simp at h
  | cons p rest ih =>
    obtain ⟨k', id'⟩ := p
    simp only [List.map_cons, List.nodup_cons] at hnd
    rcases List.mem_cons.mp h with h1 | h1
    · have hk : k = k' := congrArg Prod.fst h1
      have hid : id = id' := congrArg Prod.snd h1
      subst hk
      subst hid
      simp [tblGet]
    · have hk : k' ≠ k := by
        intro e
        subst e
        exact hnd.1 (List.mem_map.mpr ⟨(k', id), h1, rfl⟩)
      simp only [tblGet, if_neg hk]
      exact ih hnd.2 h1

theorem tblSet_eq_append {t : List (K × Nat)} {k : K} (id : Nat)
    (h : k ∉ t.map Prod.fst) : tblSet t k id = t ++ [(k, id)] := by
  induction t with
  | nil => simp [tblSet]
  | cons p rest ih =>
    obtain ⟨k', id'⟩ := p
    simp only [List.map_cons, List.mem_cons] at h
    push_neg at h
    have hne : ¬k' = k := fun e => h.1 e.symm
    simp only [tblSet, if_neg hne, ih h.2, List.cons_append]

theorem tblDel_sublist (t : List (K × Nat)) (k : K) :
    List.Sublist (tblDel t k) t := by
  induction t with
  | nil => simp [tblDel]
  | cons p rest ih =>
    obtain ⟨k', id'⟩ := p
    by_cases h : k' = k
    · simp only [tblDel, if_pos h]
      exact List.sublist_cons_self _ _
    · simp only [tblDel, if_neg h]
      exact List.Sublist.cons₂ _ ih

theorem mem_tblDel {t : List (K × Nat)} {k : K} {p : K × Nat}
    (hnd : (t.map Prod.fst).Nodup) :
    p ∈ tblDel t k ↔ p ∈ t ∧ p.1 ≠ k := by
  induction t with
  | nil => simp [tblDel]
  | cons q rest ih =>
    obtain ⟨k', id'⟩ := q
    simp only [List.map_cons, List.nodup_cons] at hnd
    by_cases h : k' = k
    · subst h
      simp only [tblDel, if_pos rfl, List.mem_cons]
      constructor
      · intro hp
        refine ⟨Or.inr hp, ?_⟩
        intro e
        exact hnd.1 (List.mem_map.mpr ⟨p, hp, e⟩)
      · rintro ⟨hp | hp, hne⟩
        · exact absurd (congrArg Prod.fst hp) hne
        · exact hp
    · simp only [tblDel, if_neg h, List.mem_cons, ih hnd.2]
      constructor
      · rintro (rfl | ⟨hp, hne⟩)
        · exact ⟨Or.inl rfl, h⟩
        · exact ⟨Or.inr hp, hne⟩
      · rintro ⟨rfl | hp, hne⟩
        · exact Or.inl rfl
        · exact Or.inr ⟨hp, hne⟩

/-! Basic facts about the list-engine primitives. -/

theorem listFind_eq_none_iff {l : List (Node K V)} {id : Nat} :
    listFind l id = none ↔ id ∉ l.map Prod.fst := by
  induction l with
  | nil => simp [listFind]
  | cons n rest ih =>
    by_cases h : n.1 = id
    · simp [listFind, h]
    · simp only [listFind, if_neg h, ih, List.map_cons, List.mem_cons]
      constructor
      · intro hn hc
        rcases hc with e | hc
        · exact h e.symm
        · exact hn hc
      · intro hn hc
        exact hn (Or.inr hc)

theorem mem_of_listFind_eq_some {l : List (Node K V)} {id : Nat}
    {it : Item K V} (h : listFind l id = some it) : (id, it) ∈ l := by
  induction l with
  | nil => simp [listFind] at h
  | cons n rest ih =>
    by_cases hn : n.1 = id
    · simp only [listFind, if_pos hn] at h
      obtain rfl := Option.some.inj h
      subst hn
      exact List.mem_cons_self _ _
    · simp only [listFind, if_neg hn] at h
      exact List.mem_cons_of_mem _ (ih h)

theorem listFind_eq_some_of_mem {l : List (Node K V)} {id : Nat}
    {it : Item K V} (hnd : (l.map Prod.fst).Nodup) (h : (id, it) ∈ l) :
    listFind l id = some it := by
  induction l with
  | nil => simp at h
  | cons n rest ih =>
    simp only [List.map_cons, List.nodup_cons] at hnd
    rcases List.mem_cons.mp h with h1 | h1
    · have h1' := h1.symm
      subst h1'
      simp [listFind]
    · have hn : n.1 ≠ id := by
        intro e
        subst e
        exact hnd.1 (List.mem_map.mpr ⟨(n.1, it), h1, rfl⟩)
      simp only [listFind, if_neg hn]
      exact ih hnd.2 h1

theorem listRemove_sublist (l : List (Node K V)) (id : Nat) :
    List.Sublist (listRemove l id) l := by
  induction l with
  | nil => simp [listRemove]
  | cons n rest ih =>
    by_cases h : n.1 = id
    · simp only [listRemove, if_pos h]
      exact List.sublist_cons_self _ _
    · simp only [listRemove, if_neg h]
      exact List.Sublist.cons₂ _ ih

theorem mem_listRemove {l : List (Node K V)} {id : Nat} {n : Node K V}
    (hnd : (l.map Prod.fst).Nodup) :
    n ∈ listRemove l id ↔ n ∈ l ∧ n.1 ≠ id := by
  induction l with
  | nil => simp [listRemove]
  | cons q rest ih =>
    simp only [List.map_cons, List.nodup_cons] at hnd
    by_cases h : q.1 = id
    · subst h
      simp only [listRemove, if_pos rfl, List.mem_cons]
      constructor
      · intro hp
        refine ⟨Or.inr hp, ?_⟩
        intro e
        exact hnd.1 (List.mem_map.mpr ⟨n, hp, e⟩)
      · rintro ⟨hp | hp, hne⟩
        · exact absurd (congrArg Prod.fst hp) hne
        · exact hp
    · simp only [listRemove, if_neg h, List.mem_cons, ih hnd.2]
      constructor
      · rintro (rfl | ⟨hp, hne⟩)
        · exact ⟨Or.inl rfl, h⟩
        · exact ⟨Or.inr hp, hne⟩
      · rintro ⟨rfl | hp, hne⟩
        · exact Or.inl rfl
        · exact Or.inr ⟨hp, hne⟩

theorem listRemove_cons_perm {l : List (Node K V)} {id : Nat}
    {it : Item K V} (hnd : (l.map Prod.fst).Nodup) (h : (id, it) ∈ l) :
    List.Perm ((id, it) :: listRemove l id) l := by
  induction l with
  | nil => simp at h
  | cons n rest ih =>
    simp only [List.map_cons, List.nodup_cons] at hnd
    rcases List.mem_cons.mp h with h1 | h1
    · have h1' := h1.symm
      subst h1'
      simp only [listRemove, if_pos rfl]
      exact List.Perm.refl _
    · have hn : n.1 ≠ id := by
        intro e
        subst e
        exact hnd.1 (List.mem_map.mpr ⟨(n.1, it), h1, rfl⟩)
      simp only [listRemove, if_neg hn]
      exact (List.Perm.swap n (id, it) _).trans
        (List.Perm.cons n (ih hnd.2 h1))

theorem listInsertAfter_perm {l : List (Node K V)} {mark : Nat}
    (id : Nat) (v : Item K V) (h : mark ∈ l.map Prod.fst) :
    List.Perm (listInsertAfter l id v mark) ((id, v) :: l) := by
  induction l with
  | nil => simp at h
  | cons n rest ih =>
    by_cases hn : n.1 = mark
    · simp only [listInsertAfter, if_pos hn]
      exact List.Perm.swap (id, v) n rest
    · simp only [List.map_cons, List.mem_cons] at h
      rcases h with h | h
      · exact absurd h.symm hn
      · simp only [listInsertAfter, if_neg hn]
        exact (List.Perm.cons n (ih h)).trans
          (List.Perm.swap (id, v) n rest)

theorem listInsertBefore_perm {l : List (Node K V)} {mark : Nat}
    (id : Nat) (v : Item K V) (h : mark ∈ l.map Prod.fst) :
    List.Perm (listInsertBefore l id v mark) ((id, v) :: l) := by
  induction l with
  | nil => simp at h
  | cons n rest ih =>
    by_cases hn : n.1 = mark
    · simp only [listInsertBefore, if_pos hn]
      exact List.Perm.refl _
    · simp only [List.map_cons, List.mem_cons] at h
      rcases h with h | h
      · exact absurd h.symm hn
      · simp only [listInsertBefore, if_neg hn]
        exact (List.Perm.cons n (ih h)).trans
          (List.Perm.swap (id, v) n rest)

theorem listSetValue_map_fst (l : List (Node K V)) (id : Nat) (v : V) :
    (listSetValue l id v).map Prod.fst = l.map Prod.fst := by
  induction l with
  | nil => rfl
  | cons n rest ih =>
    simp only [listSetValue, List.map_cons] at ih ⊢
    by_cases h : n.1 = id <;> simp [h, ih]

theorem listSetValue_keys (l : List (Node K V)) (id : Nat) (v : V) :
    (listSetValue l id v).map (fun n => n.2.Key) =
      l.map (fun n => n.2.Key) := by
  induction l with
  | nil => rfl
  | cons n rest ih =>
    simp only [listSetValue, List.map_cons] at ih ⊢
    by_cases h : n.1 = id <;> simp [h, ih]

/-! Consequences of the invariant. -/

theorem key_mem_tbl_iff {s : OrderedMap K V} (h : Inv s) {k : K} :
    k ∈ s.m.map Prod.fst ↔ k ∈ s.l.map (fun n => n.2.Key) := by
  constructor
  · intro hk
    obtain ⟨p, hp, rfl⟩ := List.mem_map.mp hk
    obtain ⟨it, hit, hkey⟩ := h.tbl_to_list p hp
    exact List.mem_map.mpr ⟨(p.2, it), hit, hkey⟩
  · intro hk
    obtain ⟨n, hn, rfl⟩ := List.mem_map.mp hk
    exact List.mem_map.mpr ⟨(n.2.Key, n.1), h.list_to_tbl n hn, rfl⟩

theorem tblGet_none_iff_keys {s : OrderedMap K V} (h : Inv s) {k : K} :
    tblGet s.m k = none ↔ k ∉ Keys s := by
  rw [tblGet_eq_none_iff]
  exact not_congr (key_mem_tbl_iff h)

theorem tblGet_some_node {s : OrderedMap K V} (h : Inv s) {k : K}
    {id : Nat} (hg : tblGet s.m k = some id) :
    ∃ it, (id, it) ∈ s.l ∧ it.Key = k :=
  h.tbl_to_list (k, id) (mem_of_tblGet_eq_some hg)

theorem node_tblGet {s : OrderedMap K V} (h : Inv s) {id : Nat}
    {it : Item K V} (hn : (id, it) ∈ s.l) :
    tblGet s.m it.Key = some id :=
  tblGet_eq_some_of_mem h.tbl_nodup (h.list_to_tbl (id, it) hn)

theorem node_id_inj {s : OrderedMap K V} (h : Inv s) {id : Nat}
    {a b : Item K V} (ha : (id, a) ∈ s.l) (hb : (id, b) ∈ s.l) :
    a = b := by
  have := List.inj_on_of_nodup_map h.ids_nodup ha hb rfl
  exact congrArg Prod.snd this

theorem node_key_inj {s : OrderedMap K V} (h : Inv s) {a b : Node K V}
    (ha : a ∈ s.l) (hb : b ∈ s.l) (hk : a.2.Key = b.2.Key) : a = b :=
  List.inj_on_of_nodup_map h.keys_nodup ha hb hk

theorem tbl_length_eq {s : OrderedMap K V} (h : Inv s) :
    s.m.length = s.l.length := by
  have hnd₂ : (s.l.map (fun n => (n.2.Key, n.1))).Nodup := by
    apply List.Nodup.of_map Prod.fst
    simpa [List.map_map, Function.comp] using h.keys_nodup
  have hperm : List.Perm s.m (s.l.map (fun n => (n.2.Key, n.1))) := by
    refine (List.perm_ext_iff_of_nodup (List.Nodup.of_map _ h.tbl_nodup)
      hnd₂).mpr ?_
    intro p
    constructor
    · intro hp
      obtain ⟨it, hit, hkey⟩ := h.tbl_to_list p hp
      exact List.mem_map.mpr ⟨(p.2, it), hit, by simp [hkey]⟩
    · intro hp
      obtain ⟨n, hn, rfl⟩ := List.mem_map.mp hp
      exact h.list_to_tbl n hn
  simpa using hperm.length_eq

/-! Permutation facts for the repositioning list operations. -/

theorem listMoveToFront_perm {l : List (Node K V)} (id : Nat)
    (hnd : (l.map Prod.fst).Nodup) :
    List.Perm l (listMoveToFront l id) := by
  unfold listMoveToFront
  cases hf : listFind l id with
  | none => exact List.Perm.refl l
  | some v =>
    exact (listRemove_cons_perm hnd (mem_of_listFind_eq_some hf)).symm

theorem listMoveToBack_perm {l : List (Node K V)} (id : Nat)
    (hnd : (l.map Prod.fst).Nodup) :
    List.Perm l (listMoveToBack l id) := by
  unfold listMoveToBack
  cases hf : listFind l id with
  | none => exact List.Perm.refl l
  | some v =>
    exact ((listRemove_cons_perm hnd (mem_of_listFind_eq_some hf)).symm).trans
      (List.perm_append_singleton _ _).symm

theorem mark_mem_listRemove {l : List (Node K V)} {id mark : Nat}
    (hnd : (l.map Prod.fst).Nodup) (hne : ¬id = mark)
    (hmark : mark ∈ l.map Prod.fst) :
    mark ∈ (listRemove l id).map Prod.fst := by
  obtain ⟨n, hn, rfl⟩ := List.mem_map.mp hmark
  refine List.mem_map.mpr ⟨n, (mem_listRemove hnd).mpr ⟨hn, ?_⟩, rfl⟩
  intro e
  exact hne (e.symm)

theorem listMoveAfter_perm {l : List (Node K V)} {id mark : Nat}
    (hnd : (l.map Prod.fst).Nodup) (hmark : mark ∈ l.map Prod.fst) :
    List.Perm l (listMoveAfter l id mark) := by
  unfold listMoveAfter
  by_cases he : id = mark
  · simp only [if_pos he]
    exact List.Perm.refl l
  · simp only [if_neg he]
    cases hf : listFind l id with
    | none => exact List.Perm.refl l
    | some v =>
      have hm := mem_of_listFind_eq_some hf
      exact ((listRemove_cons_perm hnd hm).symm).trans
        (listInsertAfter_perm id v (mark_mem_listRemove hnd he hmark)).symm

theorem listMoveBefore_perm {l : List (Node K V)} {id mark : Nat}
    (hnd : (l.map Prod.fst).Nodup) (hmark : mark ∈ l.map Prod.fst) :
    List.Perm l (listMoveBefore l id mark) := by
  unfold listMoveBefore
  by_cases he : id = mark
  · simp only [if_pos he]
    exact List.Perm.refl l
  · simp only [if_neg he]
    cases hf : listFind l id with
    | none => exact List.Perm.refl l
    | some v =>
      have hm := mem_of_listFind_eq_some hf
      exact ((listRemove_cons_perm hnd hm).symm).trans
        (listInsertBefore_perm id v (mark_mem_listRemove hnd he hmark)).symm

/-! Invariant preservation, one lemma per state shape. -/

theorem inv_of_perm {s : OrderedMap K V} (h : Inv s)
    {l' : List (Node K V)} (hp : List.Perm s.l l') :
    Inv { s with l := l' } where
  tbl_nodup := h.tbl_nodup
  ids_nodup := ((hp.map Prod.fst).nodup_iff).mp h.ids_nodup
  keys_nodup := ((hp.map (fun n => n.2.Key)).nodup_iff).mp h.keys_nodup
  tbl_to_list := by
    intro p hp'
    obtain ⟨it, hit, hk⟩ := h.tbl_to_list p hp'
    exact ⟨it, hp.mem_iff.mp hit, hk⟩
  list_to_tbl := fun n hn => h.list_to_tbl n (hp.mem_iff.mpr hn)
  ids_lt := fun n hn => h.ids_lt n (hp.mem_iff.mpr hn)

theorem inv_insert_state {s : OrderedMap K V} (h : Inv s) {k : K}
    (hk : tblGet s.m k = none) (v : V) {l' : List (Node K V)}
    (hp : List.Perm l' ((s.nextId, ⟨k, v⟩) :: s.l)) :
    Inv { m := tblSet s.m k s.nextId, l := l',
          nextId := s.nextId + 1 } := by
  have hkm : k ∉ s.m.map Prod.fst := tblGet_eq_none_iff.mp hk
  have hkl : k ∉ s.l.map (fun n => n.2.Key) :=
    fun hc => hkm ((key_mem_tbl_iff h).mpr hc)
  have hset : tblSet s.m k s.nextId = s.m ++ [(k, s.nextId)] :=
    tblSet_eq_append _ hkm
  have hfresh : s.nextId ∉ s.l.map Prod.fst := by
    intro hc
    obtain ⟨n, hn, he⟩ := List.mem_map.mp hc
    exact absurd (he ▸ h.ids_lt n hn) (lt_irrefl _)
  constructor
  case tbl_nodup =>
    rw [hset, List.map_append]
    refine List.Nodup.append h.tbl_nodup (List.nodup_singleton k) ?_
    intro a ha hb
    rw [List.map_singleton, List.mem_singleton] at hb
    subst hb
    exact hkm ha
  case ids_nodup =>
    refine ((hp.map Prod.fst).nodup_iff).mpr ?_
    rw [List.map_cons]
    exact List.nodup_cons.mpr ⟨hfresh, h.ids_nodup⟩
  case keys_nodup =>
    refine ((hp.map (fun n => n.2.Key)).nodup_iff).mpr ?_
    rw [List.map_cons]
    exact List.nodup_cons.mpr ⟨hkl, h.keys_nodup⟩
  case tbl_to_list =>
    intro p hpm
    rw [hset] at hpm
    rcases List.mem_append.mp hpm with hpm | hpm
    · obtain ⟨it, hit, hkey⟩ := h.tbl_to_list p hpm
      exact ⟨it, hp.mem_iff.mpr (List.mem_cons_of_mem _ hit), hkey⟩
    · rw [List.mem_singleton] at hpm
      subst hpm
      exact ⟨⟨k, v⟩, hp.mem_iff.mpr (List.mem_cons_self _ _), rfl⟩
  case list_to_tbl =>
    intro n hn
    rw [hset]
    rcases List.mem_cons.mp (hp.mem_iff.mp hn) with hn | hn
    · subst hn
      exact List.mem_append.mpr (Or.inr (List.mem_singleton.mpr rfl))
    · exact List.mem_append.mpr (Or.inl (h.list_to_tbl n hn))
  case ids_lt =>
    intro n hn
    rcases List.mem_cons.mp (hp.mem_iff.mp hn) with hn | hn
    · subst hn
      exact Nat.lt_succ_self _
    · exact Nat.lt_succ_of_lt (h.ids_lt n hn)

theorem inv_erase_state {s : OrderedMap K V} (h : Inv s) {k : K}
    {id : Nat} (hg : tblGet s.m k = some id) :
    Inv { s with m := tblDel s.m k, l := listRemove s.l id } := by
  obtain ⟨it, hit, hkey⟩ := tblGet_some_node h hg
  constructor
  case tbl_nodup =>
    exact ((tblDel_sublist s.m k).map Prod.fst).nodup h.tbl_nodup
  case ids_nodup =>
    exact ((listRemove_sublist s.l id).map Prod.fst).nodup h.ids_nodup
  case keys_nodup =>
    exact ((listRemove_sublist s.l id).map
      (fun n => n.2.Key)).nodup h.keys_nodup
  case tbl_to_list =>
    intro p hp
    obtain ⟨hpm, hpk⟩ := (mem_tblDel h.tbl_nodup).mp hp
    obtain ⟨it', hit', hkey'⟩ := h.tbl_to_list p hpm
    refine ⟨it', (mem_listRemove h.ids_nodup).mpr ⟨hit', ?_⟩, hkey'⟩
    intro he
    subst he
    have : it' = it := node_id_inj h hit' hit
    subst this
    exact hpk (hkey' ▸ hkey ▸ rfl)
  case list_to_tbl =>
    intro n hn
    obtain ⟨hnm, hni⟩ := (mem_listRemove h.ids_nodup).mp hn
    refine (mem_tblDel h.tbl_nodup).mpr ⟨h.list_to_tbl n hnm, ?_⟩
    intro he
    have : n = (id, it) := node_key_inj h hnm hit (by simpa [hkey] using he)
    exact hni (congrArg Prod.fst this)
  case ids_lt =>
    intro n hn
    exact h.ids_lt n ((listRemove_sublist s.l id).subset hn)

theorem inv_New : Inv (New : OrderedMap K V) := by
  constructor <;> simp [New]

theorem inv_Clear {s : OrderedMap K V} : Inv (Clear s) := by
  constructor <;> simp [Clear]

theorem inv_Update {s : OrderedMap K V} (h : Inv s) (k : K) (v : V) :
    Inv (Update s k v).1 := by
  unfold Update
  cases hg : tblGet s.m k with
  | none => exact h
  | some id =>
    constructor
    case tbl_nodup => exact h.tbl_nodup
    case ids_nodup =>
      simpa [listSetValue_map_fst] using h.ids_nodup
    case keys_nodup =>
      simpa [listSetValue_keys] using h.keys_nodup
    case tbl_to_list =>
      intro p hp
      obtain ⟨it, hit, hkey⟩ := h.tbl_to_list p hp
      simp only [listSetValue]
      have hmem := List.mem_map_of_mem
        (fun n : Node K V =>
          if n.1 = id then (n.1, ⟨n.2.Key, v⟩) else n) hit
      by_cases he : p.2 = id
      · refine ⟨⟨it.Key, v⟩, ?_, hkey⟩
        simpa [he] using hmem
      · refine ⟨it, ?_, hkey⟩
        simpa [he] using hmem
    case list_to_tbl =>
      intro n hn
      simp only [listSetValue, List.mem_map] at hn
      obtain ⟨n₀, hn₀, rfl⟩ := hn
      by_cases he : n₀.1 = id
      · simpa [he] using h.list_to_tbl n₀ hn₀
      · simpa [he] using h.list_to_tbl n₀ hn₀
    case ids_lt =>
      intro n hn
      simp only [listSetValue, List.mem_map] at hn
      obtain ⟨n₀, hn₀, rfl⟩ := hn
      by_cases he : n₀.1 = id
      · simpa [he] using h.ids_lt n₀ hn₀
      · simpa [he] using h.ids_lt n₀ hn₀

theorem inv_PushFront {s : OrderedMap K V} (h : Inv s) (k : K) (v : V) :
    Inv (PushFront s k v).1 := by
  unfold PushFront
  cases hg : tblGet s.m k with
  | some id => exact h
  | none => exact inv_insert_state h hg v (List.Perm.refl _)

theorem inv_PushBack {s : OrderedMap K V} (h : Inv s) (k : K) (v : V) :
    Inv (PushBack s k v).1 := by
  unfold PushBack
  cases hg : tblGet s.m k with
  | some id => exact h
  | none =>
    exact inv_insert_state h hg v (List.perm_append_singleton _ _)

theorem inv_InsertAfter {s : OrderedMap K V} (h : Inv s) (k : K) (v : V)
    (mark : K) : Inv (InsertAfter s k v mark).1 := by
  unfold InsertAfter
  cases hg : tblGet s.m k with
  | some id => exact h
  | none =>
    cases hm : tblGet s.m mark with
    | none => exact h
    | some markId =>
      obtain ⟨mit, hmit, _⟩ := tblGet_some_node h hm
      refine inv_insert_state h hg v ?_
      exact listInsertAfter_perm s.nextId ⟨k, v⟩
        (List.mem_map.mpr ⟨(markId, mit), hmit, rfl⟩)

theorem inv_InsertBefore {s : OrderedMap K V} (h : Inv s) (k : K)
    (v : V) (mark : K) : Inv (InsertBefore s k v mark).1 := by
  unfold InsertBefore
  cases hg : tblGet s.m k with
  | some id => exact h
  | none =>
    cases hm : tblGet s.m mark with
    | none => exact h
    | some markId =>
      obtain ⟨mit, hmit, _⟩ := tblGet_some_node h hm
      refine inv_insert_state h hg v ?_
      exact listInsertBefore_perm s.nextId ⟨k, v⟩
        (List.mem_map.mpr ⟨(markId, mit), hmit, rfl⟩)

theorem inv_MoveToFront {s : OrderedMap K V} (h : Inv s) (k : K) :
    Inv (MoveToFront s k).1 := by
  unfold MoveToFront
  cases hg : tblGet s.m k with
  | none => exact h
  | some id => exact inv_of_perm h (listMoveToFront_perm id h.ids_nodup)

theorem inv_MoveToBack {s : OrderedMap K V} (h : Inv s) (k : K) :
    Inv (MoveToBack s k).1 := by
  unfold MoveToBack
  cases hg : tblGet s.m k with
  | none => exact h
  | some id => exact inv_of_perm h (listMoveToBack_perm id h.ids_nodup)

theorem inv_MoveAfter {s : OrderedMap K V} (h : Inv s) (k mark : K) :
    Inv (MoveAfter s k mark).1 := by
  unfold MoveAfter
  by_cases he : k = mark
  · simpa [he] using h
  · simp only [if_neg he]
    cases hg : tblGet s.m k with
    | none => exact h
    | some id =>
      cases hm : tblGet s.m mark with
      | none => exact h
      | some markId =>
        obtain ⟨mit, hmit, _⟩ := tblGet_some_node h hm
        exact inv_of_perm h (listMoveAfter_perm h.ids_nodup
          (List.mem_map.mpr ⟨(markId, mit), hmit, rfl⟩))

theorem inv_MoveBefore {s : OrderedMap K V} (h : Inv s) (k mark : K) :
    Inv (MoveBefore s k mark).1 := by
  unfold MoveBefore
  by_cases he : k = mark
  · simpa [he] using h
  · simp only [if_neg he]
    cases hg : tblGet s.m k with
    | none => exact h
    | some id =>
      cases hm : tblGet s.m mark with
      | none => exact h
      | some markId =>
        obtain ⟨mit, hmit, _⟩ := tblGet_some_node h hm
        exact inv_of_perm h (listMoveBefore_perm h.ids_nodup
          (List.mem_map.mpr ⟨(markId, mit), hmit, rfl⟩))

theorem inv_Delete {s : OrderedMap K V} (h : Inv s) (k : K) :
    Inv (Delete s k).1 := by
  unfold Delete
  cases hg : tblGet s.m k with
  | none => exact h
  | some id => exact inv_erase_state h hg

theorem mem_of_head?_eq_some {α : Type} {l : List α} {a : α}
    (h : l.head? = some a) : a ∈ l := by
  cases l with
  | nil => simp at h
  | cons x xs =>
    simp only [List.head?_cons, Option.some.injEq] at h
    subst h
    exact List.mem_cons_self _ _

theorem inv_PopFront {s : OrderedMap K V} (h : Inv s) :
    Inv (PopFront s).1 := by
  unfold PopFront
  cases hh : s.l.head? with
  | none => exact h
  | some n =>
    have hn : n ∈ s.l := mem_of_head?_eq_some hh
    exact inv_erase_state h
      (tblGet_eq_some_of_mem h.tbl_nodup (h.list_to_tbl n hn))

theorem inv_PopBack {s : OrderedMap K V} (h : Inv s) :
    Inv (PopBack s).1 := by
  unfold PopBack
  cases hh : s.l.getLast? with
  | none => exact h
  | some n =>
    have hn : n ∈ s.l := by
      obtain ⟨hne, he⟩ := List.mem_getLast?_eq_getLast
        (Option.mem_def.mpr hh)
      subst he
      exact List.getLast_mem hne
    exact inv_erase_state h
      (tblGet_eq_some_of_mem h.tbl_nodup (h.list_to_tbl n hn))

/-! The Front and Next traversal visits exactly the list items in
order, when the invariant holds. -/

theorem listNext_append {pre post : List (Node K V)} {id : Nat}
    (it : Item K V)
    (hnd : ((pre ++ (id, it) :: post).map Prod.fst).Nodup) :
    listNext (pre ++ (id, it) :: post) id =
      post.head?.map (fun n => n.2) := by
  induction pre with
  | nil => simp [listNext]
  | cons n pre' ih =>
    rw [List.cons_append] at hnd ⊢
    rw [List.map_cons, List.nodup_cons] at hnd
    have hn : n.1 ≠ id := by
      intro e
      refine hnd.1 ?_
      rw [e]
      simp
    simp only [listNext, if_neg hn]
    exact ih hnd.2

theorem iterAux_spec {s : OrderedMap K V} (h : Inv s) :
    ∀ (post pre : List (Node K V)) (id : Nat) (it : Item K V)
      (fuel : Nat), s.l = pre ++ (id, it) :: post →
      post.length ≤ fuel →
      iterAux s fuel it = it :: post.map (fun n => n.2) := by
  intro post
  induction post with
  | nil =>
    intro pre id it fuel he _
    have hmem : (id, it) ∈ s.l := by rw [he]; simp
    have hg := node_tblGet h hmem
    have hnext : Next s it.Key = none := by
      simp only [Next, hg]
      rw [he, listNext_append it (he ▸ h.ids_nodup)]
      simp
    cases fuel with
    | zero => simp [iterAux]
    | succ f => simp [iterAux, hnext]
  | cons n post' ih =>
    intro pre id it fuel he hf
    have hmem : (id, it) ∈ s.l := by rw [he]; simp
    obtain ⟨id', it'⟩ := n
    have hg := node_tblGet h hmem
    have hnext : Next s it.Key = some it' := by
      simp only [Next, hg]
      rw [he, listNext_append it (he ▸ h.ids_nodup)]
      simp
    cases fuel with
    | zero => simp at hf
    | succ f =>
      simp only [iterAux, hnext]
      have he' : s.l = (pre ++ [(id, it)]) ++ (id', it') :: post' := by
        rw [he]
        simp
      rw [ih (pre ++ [(id, it)]) id' it' f he'
        (Nat.le_of_succ_le_succ hf)]
      simp

theorem iterItems_eq {s : OrderedMap K V} (h : Inv s) :
    iterItems s = Items s := by
  cases hl : s.l with
  | nil =>
    simp [iterItems, Front, hl, Items]
  | cons n rest =>
    obtain ⟨id, it⟩ := n
    have hf : Front s = some it := by simp [Front, hl]
    have he : s.l = [] ++ (id, it) :: rest := by simpa using hl
    have hfuel : rest.length ≤ s.l.length := by
      rw [hl]
      simp [Nat.le_succ]
    simp only [iterItems, hf]
    rw [iterAux_spec h rest [] id it s.l.length he hfuel]
    simp [Items, hl]

theorem Keys_eq_items_key {s : OrderedMap K V} :
    Keys s = (Items s).map (fun it => it.Key) := by
  simp [Keys, Items, List.map_map, Function.comp]

/-! Building a map by pushing a duplicate-free item sequence. -/

theorem foldl_backStep_spec :
    ∀ (its : List (Item K V)) (out : OrderedMap K V), Inv out →
      (its.map (fun it => it.Key)).Nodup →
      (∀ it ∈ its, it.Key ∉ Keys out) →
      Inv (List.foldl backStep out its) ∧
      Items (List.foldl backStep out its) = Items out ++ its := by
  intro its
  induction its with
  | nil =>
    intro out h _ _
    exact ⟨h, by simp⟩
  | cons it rest ih =>
    intro out h hnd hdisj
    have hk : it.Key ∉ Keys out := hdisj it (List.mem_cons_self _ _)
    have hg : tblGet out.m it.Key = none :=
      (tblGet_none_iff_keys h).mpr hk
    have hstep : backStep out it =
        { m := tblSet out.m it.Key out.nextId,
          l := out.l ++ [(out.nextId, ⟨it.Key, it.Value⟩)],
          nextId := out.nextId + 1 } := by
      simp [backStep, PushBack, hg, listPushBack]
    have hinv' : Inv (backStep out it) := by
      rw [hstep]
      exact inv_insert_state h hg it.Value
        (List.perm_append_singleton _ _)
    have hkeys' : Keys (backStep out it) = Keys out ++ [it.Key] := by
      rw [hstep]
      simp [Keys]
    have hitems' : Items (backStep out it) = Items out ++ [it] := by
      rw [hstep]
      simp [Items]
    simp only [List.map_cons, List.nodup_cons] at hnd
    have hdisj' : ∀ x ∈ rest, x.Key ∉ Keys (backStep out it) := by
      intro x hx
      rw [hkeys']
      intro hc
      rcases List.mem_append.mp hc with hc | hc
      · exact hdisj x (List.mem_cons_of_mem _ hx) hc
      · rw [List.mem_singleton] at hc
        exact hnd.1 (List.mem_map.mpr ⟨x, hx, hc⟩)
    rw [List.foldl_cons]
    obtain ⟨hi, hit⟩ := ih (backStep out it) hinv' hnd.2 hdisj'
    refine ⟨hi, ?_⟩
    rw [hit, hitems']
    simp

theorem foldl_revStep_spec :
    ∀ (its : List (Item K V)) (out : OrderedMap K V), Inv out →
      (its.map (fun it => it.Key)).Nodup →
      (∀ it ∈ its, it.Key ∉ Keys out) →
      Inv (List.foldl revStep out its) ∧
      Items (List.foldl revStep out its) = its.reverse ++ Items out := by
  intro its
  induction its with
  | nil =>
    intro out h _ _
    exact ⟨h, by simp⟩
  | cons it rest ih =>
    intro out h hnd hdisj
    have hk : it.Key ∉ Keys out := hdisj it (List.mem_cons_self _ _)
    have hg : tblGet out.m it.Key = none :=
      (tblGet_none_iff_keys h).mpr hk
    have hstep : revStep out it =
        { m := tblSet out.m it.Key out.nextId,
          l := (out.nextId, ⟨it.Key, it.Value⟩) :: out.l,
          nextId := out.nextId + 1 } := by
      simp [revStep, PushFront, hg, listPushFront]
    have hinv' : Inv (revStep out it) := by
      rw [hstep]
      exact inv_insert_state h hg it.Value (List.Perm.refl _)
    have hkeys' : Keys (revStep out it) = it.Key :: Keys out := by
      rw [hstep]
      simp [Keys]
    have hitems' : Items (revStep out it) = it :: Items out := by
      rw [hstep]
      simp [Items]
    simp only [List.map_cons, List.nodup_cons] at hnd
    have hdisj' : ∀ x ∈ rest, x.Key ∉ Keys (revStep out it) := by
      intro x hx
      rw [hkeys']
      intro hc
      rcases List.mem_cons.mp hc with hc | hc
      · exact hnd.1 (List.mem_map.mpr ⟨x, hx, hc⟩)
      · exact hdisj x (List.mem_cons_of_mem _ hx) hc
    rw [List.foldl_cons]
    obtain ⟨hi, hit⟩ := ih (revStep out it) hinv' hnd.2 hdisj'
    refine ⟨hi, ?_⟩
    rw [hit, hitems']
    simp

theorem foldl_filterStep_eq (f : Option (K → V → Bool)) :
    ∀ (its : List (Item K V)) (out : OrderedMap K V),
      List.foldl (filterStep f) out its =
        List.foldl backStep out
          (its.filter (fun it => !shouldSkip f it)) := by
  intro its
  induction its with
  | nil => intro out; rfl
  | cons it rest ih =>
    intro out
    by_cases hs : shouldSkip f it = true
    · simp [filterStep, hs, List.filter_cons, ih, backStep]
    · simp only [Bool.not_eq_true] at hs
      simp [filterStep, hs, List.filter_cons, ih, backStep]

theorem items_keys_nodup {s : OrderedMap K V} (h : Inv s) :
    ((Items s).map (fun it => it.Key)).Nodup := by
  rw [← Keys_eq_items_key]
  exact h.keys_nodup

theorem inv_Filter {s : OrderedMap K V} (h : Inv s)
    (f : Option (K → V → Bool)) : Inv (Filter s f) := by
  unfold Filter
  rw [foldl_filterStep_eq, iterItems_eq h]
  refine (foldl_backStep_spec _ New inv_New ?_ ?_).1
  · exact (((Items s).filter_sublist.map _)).nodup (items_keys_nodup h)
  · intro it _
    simp [Keys, New]

theorem Items_Filter {s : OrderedMap K V} (h : Inv s)
    (f : Option (K → V → Bool)) :
    Items (Filter s f) =
      (Items s).filter (fun it => !shouldSkip f it) := by
  unfold Filter
  rw [foldl_filterStep_eq, iterItems_eq h]
  have := (foldl_backStep_spec
    ((Items s).filter (fun it => !shouldSkip f it)) New inv_New
    ((((Items s).filter_sublist.map _)).nodup (items_keys_nodup h))
    (by intro it _; simp [Keys, New])).2
  rw [this]
  simp [Items, New]

theorem inv_Reverse {s : OrderedMap K V} (h : Inv s) :
    Inv (Reverse s) := by
  unfold Reverse
  rw [iterItems_eq h]
  refine (foldl_revStep_spec _ New inv_New (items_keys_nodup h) ?_).1
  intro it _
  simp [Keys, New]

theorem Items_Reverse {s : OrderedMap K V} (h : Inv s) :
    Items (Reverse s) = (Items s).reverse := by
  unfold Reverse
  rw [iterItems_eq h]
  have := (foldl_revStep_spec (Items s) New inv_New
    (items_keys_nodup h) (by intro it _; simp [Keys, New])).2
  rw [this]
  simp [Items, New]

theorem inv_applyOp {s : OrderedMap K V} (h : Inv s) (op : Op K V) :
    Inv (applyOp s op) := by
  cases op with
  | update k v => exact inv_Update h k v
  | pushFront k v => exact inv_PushFront h k v
  | pushBack k v => exact inv_PushBack h k v
  | insertAfter k v mk => exact inv_InsertAfter h k v mk
  | insertBefore k v mk => exact inv_InsertBefore h k v mk
  | moveToFront k => exact inv_MoveToFront h k
  | moveToBack k => exact inv_MoveToBack h k
  | moveAfter k mk => exact inv_MoveAfter h k mk
  | moveBefore k mk => exact inv_MoveBefore h k mk
  | delete k => exact inv_Delete h k
  | popFront => exact inv_PopFront h
  | popBack => exact inv_PopBack h
  | clear => exact inv_Clear
  | filter f => exact inv_Filter h f
  | reverse => exact inv_Reverse h

theorem inv_run (ops : List (Op K V)) : Inv (run ops) := by
  unfold run
  have : ∀ (l : List (Op K V)) (s : OrderedMap K V), Inv s →
      Inv (l.foldl applyOp s) := by
    intro l
    induction l with
    | nil => intro s h; exact h
    | cons op rest ih =>
      intro s h
      exact ih _ (inv_applyOp h op)
  exact this ops New inv_New

/-! Characterisations of Get under the invariant. -/

theorem Get_eq_none_iff {s : OrderedMap K V} (h : Inv s) {k : K} :
    Get s k = none ↔ k ∉ Keys s := by
  cases hg : tblGet s.m k with
  | none =>
    simp [Get, hg, (tblGet_none_iff_keys h).mp hg]
  | some id =>
    obtain ⟨it, hit, hkey⟩ := tblGet_some_node h hg
    have hkin : k ∈ Keys s := by
      exact List.mem_map.mpr ⟨(id, it), hit, hkey⟩
    simp only [Get, hg]
    rw [listFind_eq_some_of_mem h.ids_nodup hit]
    simp [hkin]

theorem Get_node {s : OrderedMap K V} (h : Inv s) {id : Nat}
    {it : Item K V} (hn : (id, it) ∈ s.l) :
    Get s it.Key = some it.Value := by
  simp only [Get, node_tblGet h hn,
    listFind_eq_some_of_mem h.ids_nodup hn, Option.map_some']

theorem find?_key_eq {its : List (Item K V)} {k : K} {it : Item K V}
    (hnd : (its.map (fun x => x.Key)).Nodup) (hmem : it ∈ its)
    (hkey : it.Key = k) :
    its.find? (fun x => decide (x.Key = k)) = some it := by
  induction its with
  | nil => simp at hmem
  | cons a rest ih =>
    simp only [List.map_cons, List.nodup_cons] at hnd
    rcases List.mem_cons.mp hmem with he | hmem'
    · subst he
      exact List.find?_cons_of_pos _ (by simp [hkey])
    · have ha : ¬(a.Key = k) := by
        intro e
        exact hnd.1
          (List.mem_map.mpr ⟨it, hmem', hkey.trans e.symm⟩)
      rw [List.find?_cons_of_neg _ (by simp [ha])]
      exact ih hnd.2 hmem'

theorem Get_eq_find {s : OrderedMap K V} (h : Inv s) (k : K) :
    Get s k = ((Items s).find? (fun it => decide (it.Key = k))).map
      (fun it => it.Value) := by
  cases hg : tblGet s.m k with
  | none =>
    have hout : k ∉ Keys s := (tblGet_none_iff_keys h).mp hg
    have hfind :
        (Items s).find? (fun it => decide (it.Key = k)) = none := by
      rw [List.find?_eq_none]
      intro x hx
      simp only [decide_eq_true_eq]
      intro he
      exact hout (by rw [Keys_eq_items_key]
                     exact List.mem_map.mpr ⟨x, hx, he⟩)
    rw [hfind]
    simp [Get, hg]
  | some id =>
    obtain ⟨it, hit, hkey⟩ := tblGet_some_node h hg
    have hmem : it ∈ Items s := List.mem_map.mpr ⟨(id, it), hit, rfl⟩
    rw [find?_key_eq (items_keys_nodup h) hmem hkey]
    simp only [Get, hg, listFind_eq_some_of_mem h.ids_nodup hit]

theorem listFind_listSetValue (l : List (Node K V)) (id : Nat) (v : V) :
    listFind (listSetValue l id v) id =
      (listFind l id).map (fun it => (⟨it.Key, v⟩ : Item K V)) := by
  induction l with
  | nil => rfl
  | cons n rest ih =>
    simp only [listSetValue, List.map_cons] at ih ⊢
    by_cases hn : n.1 = id
    · simp [listFind, hn]
    · simp [listFind, hn, ih]

/-- C2: for distinct keys, MoveAfter and MoveBefore report the
KeyMissing error kind both when the key is absent from the lookup
table and when the mark is, and they never report MarkKeyMissing. -/
theorem moveAfter_moveBefore_keyMissing (s : OrderedMap K V)
    (key mark : K) :
    (key ≠ mark →
      (tblGet s.m key = none ∨ tblGet s.m mark = none) →
      (MoveAfter s key mark).2 = some Err.KeyMissing ∧
      (MoveBefore s key mark).2 = some Err.KeyMissing) ∧
    (MoveAfter s key mark).2 ≠ some Err.MarkKeyMissing ∧
    (MoveBefore s key mark).2 ≠ some Err.MarkKeyMissing := by
  refine ⟨?_, ?_, ?_⟩
  · intro hne habs
    unfold MoveAfter MoveBefore
    rw [if_neg hne, if_neg hne]
    rcases habs with habs | habs
    · rw [habs]
      exact ⟨rfl, rfl⟩
    · cases hk : tblGet s.m key with
      | none => exact ⟨rfl, rfl⟩
      | some id =>
        rw [habs]
        exact ⟨rfl, rfl⟩
  · unfold MoveAfter
    by_cases he : key = mark
    · simp [he]
    · rw [if_neg he]
      cases tblGet s.m key with
      | none => simp
      | some id =>
        cases tblGet s.m mark with
        | none => simp
        | some markId => simp
  · unfold MoveBefore
    by_cases he : key = mark
    · simp [he]
    · rw [if_neg he]
      cases tblGet s.m key with
      | none => simp
      | some id =>
        cases tblGet s.m mark with
        | none => simp
        | some markId => simp

/-- C2 witness: on the empty map with distinct keys 1 and 2 both moves
fail with KeyMissing, and neither ever returns MarkKeyMissing. -/
theorem moveAfter_moveBefore_keyMissing_witness :
    (MoveAfter (New : OrderedMap Nat Nat) 1 2).2 =
        some Err.KeyMissing ∧
      (MoveBefore (New : OrderedMap Nat Nat) 1 2).2 =
        some Err.KeyMissing ∧
      (MoveAfter (New : OrderedMap Nat Nat) 1 2).2 ≠
        some Err.MarkKeyMissing := by
  have h := moveAfter_moveBefore_keyMissing
    (New : OrderedMap Nat Nat) 1 2
  obtain ⟨h1, h2, _⟩ := h
  have hcase := h1 (by decide) (Or.inl (by decide))
  exact ⟨hcase.1, hcase.2, h2⟩

/-- C3: InsertAfter and InsertBefore fail with KeyAlreadyPresent
whenever the key is already present (mark checked second), fail with
MarkKeyMissing when both key and mark are absent, and leave the state
unchanged on either failure. -/
theorem insert_error_spec (s : OrderedMap K V) (key : K) (v : V)
    (mark : K) :
    ((tblGet s.m key).isSome = true →
      InsertAfter s key v mark = (s, some Err.KeyAlreadyPresent) ∧
      InsertBefore s key v mark = (s, some Err.KeyAlreadyPresent)) ∧
    (tblGet s.m key = none → tblGet s.m mark = none →
      InsertAfter s key v mark = (s, some Err.MarkKeyMissing) ∧
      InsertBefore s key v mark = (s, some Err.MarkKeyMissing)) := by
  constructor
  · intro hp
    obtain ⟨id, hid⟩ := Option.isSome_iff_exists.mp hp
    unfold InsertAfter InsertBefore
    rw [hid]
    exact ⟨rfl, rfl⟩
  · intro hk hm
    unfold InsertAfter InsertBefore
    rw [hk, hm]
    exact ⟨rfl, rfl⟩

/-- C3 witness: with key 1 present and mark 5 absent the inserts
report KeyAlreadyPresent; on the empty map with both absent they
report MarkKeyMissing; the state is returned unchanged. -/
theorem insert_error_spec_witness :
    (InsertAfter (run [Op.pushBack 1 10]) 1 11 5 =
        (run [Op.pushBack 1 10], some Err.KeyAlreadyPresent)) ∧
      (InsertBefore (New : OrderedMap Nat Nat) 1 11 2 =
        (New, some Err.MarkKeyMissing)) := by
  have h1 := (insert_error_spec (run [Op.pushBack 1 10]) 1 11 5).1
    (by decide)
  have h2 := (insert_error_spec (New : OrderedMap Nat Nat) 1 11 2).2
    (by decide) (by decide)
  exact ⟨h1.1, h2.2⟩

/-- C4: MoveAfter and MoveBefore with key equal to mark succeed with
no error and leave the state unchanged, whether or not the key is
present. -/
theorem move_self_noop (s : OrderedMap K V) (k : K) :
    MoveAfter s k k = (s, none) ∧ MoveBefore s k k = (s, none) := by
  unfold MoveAfter MoveBefore
  simp

/-- C5: Update on a present key returns the old value and no error,
makes Get return the new value, keeps every key in place, and leaves
all other entries untouched; Update on an absent key fails with
KeyMissing and returns the state unchanged. -/
theorem update_spec (s : OrderedMap K V) (key : K) (v : V)
    (h : Inv s) :
    (∀ old, Get s key = some old →
      (Update s key v).2.1 = some old ∧
      (Update s key v).2.2 = none ∧
      Get (Update s key v).1 key = some v ∧
      Keys (Update s key v).1 = Keys s ∧
      Items (Update s key v).1 =
        (Items s).map
          (fun it => if it.Key = key then ⟨key, v⟩ else it)) ∧
    (Get s key = none →
      Update s key v = (s, none, some Err.KeyMissing)) := by
  constructor
  · intro old hold
    cases hg : tblGet s.m key with
    | none => simp [Get, hg] at hold
    | some id =>
      obtain ⟨it, hit, hkey⟩ := tblGet_some_node h hg
      have hfind := listFind_eq_some_of_mem h.ids_nodup hit
      have hold' : old = it.Value := by
        simp [Get, hg, hfind] at hold
        exact hold.symm
      subst hold'
      refine ⟨?_, ?_, ?_, ?_, ?_⟩
      · simp [Update, hg, hfind]
      · simp [Update, hg]
      · simp only [Update, hg]
        simp [Get, hg, listFind_listSetValue, hfind]
      · simp only [Update, hg, Keys, listSetValue_keys]
      · simp only [Update, hg, Items, listSetValue, List.map_map]
        apply List.map_congr_left
        intro n hn
        simp only [Function.comp_apply]
        by_cases he : n.1 = id
        · have hn' : n = (id, n.2) := by
            rw [← he]
          have heq : n.2 = it := by
            refine node_id_inj h ?_ hit
            rw [← he]
            exact hn
          rw [if_pos he]
          simp only [heq, hkey]
          simp
        · rw [if_neg he]
          have hne : ¬(n.2.Key = key) := by
            intro e
            have : n = (id, it) := by
              refine node_key_inj h hn hit ?_
              rw [e, ← hkey]
            exact he (congrArg Prod.fst this)
          simp [hne]
  · intro hnone
    have hg : tblGet s.m key = none := by
      rw [tblGet_none_iff_keys h]
      exact (Get_eq_none_iff h).mp hnone
    simp [Update, hg]

/-- C5 witness: on the two-item map (1,10),(2,20), updating key 1 to
99 returns the old value 10 and no error, Get 1 yields 99, key order
and the other entry are unchanged; updating absent key 9 fails with
KeyMissing and leaves the map unchanged. -/
theorem update_spec_witness :
    ((Update (run [Op.pushBack 1 10, Op.pushBack 2 20]) 1 99).2.1 =
        some 10 ∧
      Get (Update (run [Op.pushBack 1 10, Op.pushBack 2 20]) 1 99).1
        1 = some 99 ∧
      Items (Update (run [Op.pushBack 1 10, Op.pushBack 2 20]) 1
        99).1 = [⟨1, 99⟩, ⟨2, 20⟩]) ∧
    Update (run [Op.pushBack 1 10, Op.pushBack 2 20]) 9 99 =
      (run [Op.pushBack 1 10, Op.pushBack 2 20], none,
        some Err.KeyMissing) := by
  have h := update_spec (run [Op.pushBack 1 10, Op.pushBack 2 20])
    1 99 (inv_run _)
  have hp := h.1 10 (by decide)
  have h9 := (update_spec (run [Op.pushBack 1 10, Op.pushBack 2 20])
    9 99 (inv_run _)).2 (by decide)
  refine ⟨⟨hp.1, hp.2.2.1, ?_⟩, h9⟩
  rw [hp.2.2.2.2]
  decide

theorem listRemove_items {l : List (Node K V)} {id : Nat}
    {it : Item K V} (hnd : (l.map Prod.fst).Nodup)
    (hknd : (l.map (fun n => n.2.Key)).Nodup) (hit : (id, it) ∈ l) :
    (listRemove l id).map (fun n => n.2) =
      (l.map (fun n => n.2)).filter
        (fun x => decide (¬x.Key = it.Key)) := by
  induction l with
  | nil => simp at hit
  | cons n rest ih =>
    simp only [List.map_cons, List.nodup_cons] at hnd hknd
    rcases List.mem_cons.mp hit with he | hmem
    · have hn1 : n.1 = id := (congrArg Prod.fst he).symm
      have hn2 : n.2 = it := (congrArg Prod.snd he).symm
      simp only [listRemove, if_pos hn1, List.map_cons,
        List.filter_cons, hn2]
      simp only [decide_not, decide_eq_true_eq]
      rw [if_neg (by simp)]
      symm
      rw [List.filter_eq_self]
      intro a ha
      simp only [Bool.not_eq_true']
      rw [decide_eq_false_iff_not]
      push_neg
      intro he'
      refine hknd.1 ?_
      obtain ⟨n', hn', rfl⟩ := List.mem_map.mp ha
      rw [hn2, ← he']
      exact List.mem_map.mpr ⟨n', hn', rfl⟩
    · have hn1 : n.1 ≠ id := by
        intro e
        refine hnd.1 ?_
        rw [e]
        exact List.mem_map.mpr ⟨(id, it), hmem, rfl⟩
      have hkne : ¬(n.2.Key = it.Key) := by
        intro e
        refine hknd.1 ?_
        rw [e]
        exact List.mem_map.mpr ⟨(id, it), hmem, rfl⟩
      simp only [listRemove, if_neg hn1, List.map_cons,
        List.filter_cons]
      rw [if_pos (by simp [hkne])]
      rw [ih hnd.2 hknd.2 hmem]

/-- C1: every state reachable from a freshly created empty map by a
sequence of public operations satisfies: Len equals the number of
lookup-table entries, which equals the number of list nodes; the table
holds a key exactly when some node holds it; and every table entry
designates a node holding exactly that key. -/
theorem reachable_state_sync (ops : List (Op K V)) :
    Len (run ops) = (run ops).m.length ∧
    (run ops).m.length = (run ops).l.length ∧
    (∀ k, (∃ id, (k, id) ∈ (run ops).m) ↔
      (∃ n ∈ (run ops).l, n.2.Key = k)) ∧
    (∀ k id, (k, id) ∈ (run ops).m →
      ∃ it, (id, it) ∈ (run ops).l ∧ it.Key = k) := by
  have h := inv_run (K := K) (V := V) ops
  refine ⟨rfl, tbl_length_eq h, ?_, ?_⟩
  · intro k
    constructor
    · rintro ⟨id, hid⟩
      obtain ⟨it, hit, hkey⟩ := h.tbl_to_list (k, id) hid
      exact ⟨(id, it), hit, hkey⟩
    · rintro ⟨n, hn, hkey⟩
      exact ⟨n.1, hkey ▸ h.list_to_tbl n hn⟩
  · intro k id hm
    exact h.tbl_to_list (k, id) hm

/-- C6: Filter with a non-nil predicate p builds a fresh map whose
item sequence is exactly the front-to-back subsequence of the
receiver's items satisfying p, in the original order (the receiver is
a separate, untouched state). -/
theorem filter_spec (s : OrderedMap K V) (p : K → V → Bool)
    (h : Inv s) :
    Items (Filter s (some p)) =
      (Items s).filter (fun it => p it.Key it.Value) := by
  rw [Items_Filter h]
  apply List.filter_congr
  intro it _
  simp [shouldSkip]

/-- C6 witness (Scenario E): filtering the container
(1,one),(2,two),(3,three) by key evenness yields exactly (2,two),
while the original container still holds all three items. -/
theorem filter_spec_witness :
    Items (Filter
        (run [Op.pushBack 1 "one", Op.pushBack 2 "two",
          Op.pushBack 3 "three"])
        (some (fun k _ => decide (k % 2 = 0)))) = [⟨2, "two"⟩] ∧
    Items (run [Op.pushBack 1 "one", Op.pushBack 2 "two",
        Op.pushBack 3 "three"]) =
      [⟨1, "one"⟩, ⟨2, "two"⟩, ⟨3, "three"⟩] := by
  constructor
  · rw [filter_spec _ _ (inv_run _)]
    decide
  · decide

/-- C7: Reverse builds a fresh map whose item sequence is exactly the
reverse of the receiver's item sequence (the receiver is a separate,
untouched state). -/
theorem reverse_spec (s : OrderedMap K V) (h : Inv s) :
    Items (Reverse s) = (Items s).reverse :=
  Items_Reverse h

/-- C7 witness (Scenario F): reversing the container holding keys
1,2,3 yields the container 3,2,1 while the original still holds
1,2,3. -/
theorem reverse_spec_witness :
    Items (Reverse (run [Op.pushBack 1 "one", Op.pushBack 2 "two",
        Op.pushBack 3 "three"])) =
      [⟨3, "three"⟩, ⟨2, "two"⟩, ⟨1, "one"⟩] ∧
    Items (run [Op.pushBack 1 "one", Op.pushBack 2 "two",
        Op.pushBack 3 "three"]) =
      [⟨1, "one"⟩, ⟨2, "two"⟩, ⟨3, "three"⟩] := by
  constructor
  · rw [reverse_spec _ (inv_run _)]
    decide
  · decide

/-- C8: feeding Items back through sequential PushBack into a fresh
empty map succeeds at every step and reproduces a map with the same
Items, Keys, Len and the same Get result at every key. -/
theorem roundtrip_spec (s : OrderedMap K V) (h : Inv s) :
    (∀ pre it post, Items s = pre ++ it :: post →
      (PushBack (List.foldl backStep New pre) it.Key it.Value).2 =
        none) ∧
    Items (List.foldl backStep New (Items s)) = Items s ∧
    Keys (List.foldl backStep New (Items s)) = Keys s ∧
    Len (List.foldl backStep New (Items s)) = Len s ∧
    (∀ k, Get (List.foldl backStep New (Items s)) k = Get s k) := by
  have hnd := items_keys_nodup h
  have hdisj : ∀ it ∈ Items s, it.Key ∉ Keys (New : OrderedMap K V) :=
    by intro it _; simp [Keys, New]
  obtain ⟨hinv, hitems⟩ :=
    foldl_backStep_spec (Items s) New inv_New hnd hdisj
  have hitems' : Items (List.foldl backStep New (Items s)) =
      Items s := by
    rw [hitems]
    simp [Items, New]
  refine ⟨?_, hitems', ?_, ?_, ?_⟩
  · intro pre it post he
    have hnd' := he ▸ hnd
    rw [List.map_append, List.nodup_append] at hnd'
    obtain ⟨hpre, hcons, hdj⟩ := hnd'
    obtain ⟨hinvp, hitp⟩ := foldl_backStep_spec pre New inv_New hpre
      (by intro x _; simp [Keys, New])
    have hkeysp : Keys (List.foldl backStep New pre) =
        pre.map (fun x => x.Key) := by
      rw [Keys_eq_items_key, hitp]
      simp [Items, New]
    have hnotin : it.Key ∉ Keys (List.foldl backStep New pre) := by
      rw [hkeysp]
      intro hc
      exact hdj hc (by simp)
    have hg : tblGet (List.foldl backStep New pre).m it.Key = none :=
      (tblGet_none_iff_keys hinvp).mpr hnotin
    simp [PushBack, hg]
  · rw [Keys_eq_items_key, Keys_eq_items_key, hitems']
  · have h1 := tbl_length_eq hinv
    have h2 := tbl_length_eq h
    have h3 : (List.foldl backStep New (Items s)).l.length =
        s.l.length := by
      have := congrArg List.length hitems'
      simpa [Items] using this
    simp only [Len, h1, h2, h3]
  · intro k
    rw [Get_eq_find hinv k, Get_eq_find h k, hitems']

/-- C8 witness: replaying the items of the map (1,10),(2,20)
reproduces the same item sequence, and the first replay step succeeds
with no error. -/
theorem roundtrip_spec_witness :
    Items (List.foldl backStep New
        (Items (run [Op.pushBack 1 10, Op.pushBack 2 20]))) =
      Items (run [Op.pushBack 1 10, Op.pushBack 2 20]) ∧
    (PushBack (New : OrderedMap Nat Nat) 1 10).2 = none := by
  have h := roundtrip_spec (run [Op.pushBack 1 10, Op.pushBack 2 20])
    (inv_run _)
  exact ⟨h.2.1, h.1 [] ⟨1, 10⟩ [⟨2, 20⟩] (by decide)⟩

/-- C9: Delete carries no error result at all; on a present key it
removes exactly that entry and returns its value, with all other
entries keeping their order and values; on an absent key it returns
the not-found marker and the map unchanged. -/
theorem delete_spec (s : OrderedMap K V) (key : K) (h : Inv s) :
    (∀ v, Get s key = some v →
      (Delete s key).2 = some v ∧
      Items (Delete s key).1 =
        (Items s).filter (fun it => decide (¬it.Key = key))) ∧
    (Get s key = none → Delete s key = (s, none)) := by
  constructor
  · intro v hget
    cases hg : tblGet s.m key with
    | none => simp [Get, hg] at hget
    | some id =>
      obtain ⟨it, hit, hkey⟩ := tblGet_some_node h hg
      have hfind := listFind_eq_some_of_mem h.ids_nodup hit
      have hv : v = it.Value := by
        simp [Get, hg, hfind] at hget
        exact hget.symm
      subst hv
      constructor
      · simp [Delete, hg, hfind]
      · simp only [Delete, hg, Items]
        rw [listRemove_items h.ids_nodup h.keys_nodup hit, hkey]
  · intro hnone
    have hg : tblGet s.m key = none := by
      rw [tblGet_none_iff_keys h]
      exact (Get_eq_none_iff h).mp hnone
    simp [Delete, hg]

/-- C9 witness: deleting key 1 from the map (1,10),(2,20) returns its
value 10 and leaves exactly (2,20); deleting absent key 9 returns the
not-found marker and the unchanged map. -/
theorem delete_spec_witness :
    ((Delete (run [Op.pushBack 1 10, Op.pushBack 2 20]) 1).2 =
        some 10 ∧
      Items (Delete (run [Op.pushBack 1 10, Op.pushBack 2 20])
        1).1 = [⟨2, 20⟩]) ∧
    Delete (run [Op.pushBack 1 10, Op.pushBack 2 20]) 9 =
      (run [Op.pushBack 1 10, Op.pushBack 2 20], none) := by
  have h := delete_spec (run [Op.pushBack 1 10, Op.pushBack 2 20]) 1
    (inv_run _)
  have hp := h.1 10 (by decide)
  have h9 := (delete_spec (run [Op.pushBack 1 10, Op.pushBack 2 20])
    9 (inv_run _)).2 (by decide)
  refine ⟨⟨hp.1, ?_⟩, h9⟩
  rw [hp.2]
  decide

/-- C10: Filter with the nil predicate retains every entry: the
result is a fresh map whose item sequence is the receiver's entire
item sequence, in order. -/
theorem filter_nil_spec (s : OrderedMap K V) (h : Inv s) :
    Items (Filter s none) = Items s := by
  rw [Items_Filter h]
  apply List.filter_eq_self.mpr
  intro a _
  simp [shouldSkip]

/-- C10 witness: filtering the map (1,10),(2,20) with the nil
predicate reproduces the full item sequence. -/
theorem filter_nil_spec_witness :
    Items (Filter (run [Op.pushBack 1 10, Op.pushBack 2 20]) none) =
      [⟨1, 10⟩, ⟨2, 20⟩] := by
  rw [filter_nil_spec _ (inv_run _)]
  decide

end Orderedmap
